import Mathlib

/-!
Verification development for the `fixelcfestats` command (cmd/fixelcfestats.cpp).

The relevant parts of the program are shallowly embedded:
machine floats (`value_type = float`) are modelled as exact rationals `ℚ`;
`std::map<int32_t, T>` rows are modelled either as entry functions
`ℕ → Option ℚ` (key present iff the value is `some`) or as association
lists with distinct keys; external library functions whose bodies are not
part of this repository (`Math::pow`, `Math::exp`, `Math::sqrt`) are taken
as function parameters.
-/

/-! ## Command-line options and derived parameters (run(), lines 206-254)

An `Opts` value records, for each option of the `OPTIONS` table in
`usage()`, whether the option was supplied on the command line and with
which argument.  Fields are in the order: cfe_dh, cfe_h, cfe_e, cfe_c,
nperms, angle, connectivity, smooth, notest, nonstationary,
nperms_nonstationary. -/
structure Opts where
  cfe_dh : Option ℚ
  cfe_h : Option ℚ
  cfe_e : Option ℚ
  cfe_c : Option ℚ
  nperms : Option ℕ
  angle : Option ℚ
  connectivity : Option ℚ
  smooth : Option ℚ
  notest : Bool
  nonstationary : Bool
  nperms_nonstationary : Option ℕ

/-- A run with no options supplied at all. -/
def defaultOpts : Opts :=
  ⟨none, none, none, none, none, none, none, none, false, false, none⟩

/-- Lines 208-211: `value_type cfe_dh = 0.1; if (opt.size()) cfe_dh = opt[0][0];`. -/
def cfe_dh_val (o : Opts) : ℚ := o.cfe_dh.getD (1/10)

/-- Lines 213-216: the variable `cfe_h` is initialised to `2.0` and
overwritten only when the `cfe_h` option is supplied. -/
def cfe_h_val (o : Opts) : ℚ := o.cfe_h.getD 2

/-- Lines 218-221: the variable `cfe_e` is initialised to `1.0` and
overwritten only when the `cfe_e` option is supplied. -/
def cfe_e_val (o : Opts) : ℚ := o.cfe_e.getD 1

/-- Lines 223-226: `cfe_c` defaults to `0.1`. -/
def cfe_c_val (o : Opts) : ℚ := o.cfe_c.getD (1/10)

/-- Lines 228-231 (and again 251-254): `num_perms` defaults to `5000` and is
assigned from the `nperms` option; the second read at lines 251-254 assigns
the same option value to the same variable again. -/
def num_perms_val (o : Opts) : ℕ := o.nperms.getD 5000

/-- Lines 233-236: angular threshold defaults to 30 degrees. -/
def angular_threshold_val (o : Opts) : ℚ := o.angle.getD 30

/-- Lines 239-242: connectivity threshold defaults to 0.01. -/
def connectivity_threshold_val (o : Opts) : ℚ := o.connectivity.getD (1/100)

/-- Lines 244-247: `smooth_std_dev = FWHM / 2.3548` with FWHM defaulting
to 10.  (For FWHM = 0 this is exactly 0 in float arithmetic as well.) -/
def smooth_std_dev_val (o : Opts) : ℚ := (o.smooth.getD 10) / (23548/10000)

/-- Line 249: `bool do_nonstationary_adjustment = get_options ("nperms_nonstationary").size();`
The adjustment is triggered by the presence of the `nperms_nonstationary`
option; the declared `nonstationary` flag is never queried anywhere in `run()`. -/
def do_nonstationary_adjustment_val (o : Opts) : Bool := o.nperms_nonstationary.isSome

/-- Lines 251-254: `opt = get_options ("nperms"); int nperms_nonstationary = 5000;
if (opt.size()) num_perms = opt[0][0];` — the variable `nperms_nonstationary`
is initialised to 5000 and never reassigned (the `if` body assigns
`num_perms` instead), so the value supplied via the `nperms_nonstationary`
option is never used. -/
def nperms_nonstationary_val (_o : Opts) : ℕ := 5000

/-- Line 364: `if (smooth_std_dev > 0.0) do_smoothing = true;`. -/
def do_smoothing_val (sigma : ℚ) : Bool := decide (0 < sigma)

/-- Lines 363-367: `gaussian_const1` is `1.0` unless `smooth_std_dev > 0`,
in which case it is `1/(sigma*sqrt(2*pi))`; the latter (irrational) value is
passed in as the parameter `g1pos` since `Math::sqrt` is library code. -/
def gaussian_const1_val (sigma g1pos : ℚ) : ℚ := if 0 < sigma then g1pos else 1

/-! ## Output files written by run()

The program writes, in order: the per-contrast beta maps, the absolute and
standardised effect maps and the standard-deviation map (lines 454-468);
then, when the nonstationarity pre-pass runs, `_cfe_empirical.msf`
(line 488); then, unless `notest` was given (lines 495-496), the
permutation-testing outputs of lines 510-519.  The writes of
`_perm_dist_neg.txt` (line 512), `_cfe_neg.msf` (line 516) and
`_pvalue_neg.msf` (line 519) are commented out in the source, so only the
positive-tail files and `_tvalue.msf` are produced. -/

/-- Per-contrast beta map filenames (lines 459-460). -/
def beta_files (pre : String) (ncols : ℕ) : List String :=
  (List.range ncols).map (fun i => pre ++ "_beta" ++ toString i ++ ".msf")

/-- The complete list of files written by `run()` for options `o`, output
argument `pre` and `ncols` contrast columns, in write order. -/
def output_files (o : Opts) (pre : String) (ncols : ℕ) : List String :=
  beta_files pre ncols
  ++ [pre ++ "_abs_effect.msf", pre ++ "_std_effect.msf", pre ++ "_std_dev.msf"]
  ++ (if do_nonstationary_adjustment_val o then [pre ++ "_cfe_empirical.msf"] else [])
  ++ (if o.notest then [] else
      [pre ++ "_perm_dist_pos.txt", pre ++ "_cfe_pos.msf",
       pre ++ "_tvalue.msf", pre ++ "_pvalue_pos.msf"])

/-- Options: only `nonstationary` supplied. -/
def nonstatOnlyOpts : Opts :=
  ⟨none, none, none, none, none, none, none, none, false, true, none⟩

/-- Options: only `nperms_nonstationary 100` supplied. -/
def nnsOpts : Opts :=
  ⟨none, none, none, none, none, none, none, none, false, false, some 100⟩

/-- Options: `nperms 200` and `nperms_nonstationary 100` supplied. -/
def npermsBothOpts : Opts :=
  ⟨none, none, none, none, some 200, none, none, none, false, false, some 100⟩

/-- Options: `notest` together with `nperms_nonstationary 5000`. -/
def notestNonstatOpts : Opts :=
  ⟨none, none, none, none, none, none, none, none, true, false, some 5000⟩

/-- Options: `notest` alone. -/
def notestOnlyOpts : Opts :=
  ⟨none, none, none, none, none, none, none, none, true, false, none⟩

/-- C1: in a run without `notest` (here: no options at all, output argument
"out", one contrast column) the program writes only the positive-tail test
outputs `_perm_dist_pos.txt`, `_cfe_pos.msf`, `_tvalue.msf` and
`_pvalue_pos.msf`; none of `_cfe_neg.msf`, `_pvalue_neg.msf` and
`_perm_dist_neg.txt` is ever written, because their write statements are
commented out (lines 512, 516, 519).  This refutes the claim that all seven
test-output files are produced. -/
theorem test_output_files_omit_negative_tail :
    output_files defaultOpts "out" 1 =
      ["out_beta0.msf", "out_abs_effect.msf", "out_std_effect.msf", "out_std_dev.msf",
       "out_perm_dist_pos.txt", "out_cfe_pos.msf", "out_tvalue.msf", "out_pvalue_pos.msf"] ∧
    "out_cfe_neg.msf" ∉ output_files defaultOpts "out" 1 ∧
    "out_pvalue_neg.msf" ∉ output_files defaultOpts "out" 1 ∧
    "out_perm_dist_neg.txt" ∉ output_files defaultOpts "out" 1 := by
  decide

/-- C3: the `nonstationary` flag on its own does not enable the empirical
adjustment; supplying `nperms_nonstationary 100` does enable it even though
the flag is absent, yet the pre-pass permutation count stays at 5000 (the
option's value is dropped); and the `nperms` option sets the number of test
permutations. -/
theorem nonstationary_options_misrouted :
    do_nonstationary_adjustment_val nonstatOnlyOpts = false ∧
    nonstatOnlyOpts.nonstationary = true ∧
    do_nonstationary_adjustment_val nnsOpts = true ∧
    nnsOpts.nonstationary = false ∧
    nperms_nonstationary_val nnsOpts = 5000 ∧
    num_perms_val npermsBothOpts = 200 := by
  decide

/-- C4: with neither `cfe_e` nor `cfe_h` supplied, the extent exponent
actually used is 1 and the height exponent is 2 — the opposite of the
defaults documented in the program's own help text (lines 85-89). -/
theorem cfe_exponent_defaults_swapped :
    cfe_e_val defaultOpts = 1 ∧ cfe_h_val defaultOpts = 2 ∧ (1 : ℚ) ≠ 2 := by
  decide

/-- C8 counterexample: with `notest` and `nperms_nonstationary` both given,
the file `out_cfe_empirical.msf` — matching `_cfe_*` — is still written, so
it is false that under `notest` no `_cfe_*` file is produced regardless of
the other options. -/
theorem notest_writes_cfe_empirical :
    notestNonstatOpts.notest = true ∧
    "out_cfe_empirical.msf" ∈ output_files notestNonstatOpts "out" 1 := by
  decide

/-- C8 (amended): for every run with `notest`, the files written are exactly
the beta maps, the absolute-effect, standardised-effect and
standard-deviation maps, plus `_cfe_empirical.msf` exactly when the
`nperms_nonstationary` option (which is what triggers the nonstationarity
pre-pass) is present; in particular no `_pvalue_*` or `_perm_dist_*` file is
written. -/
theorem notest_output_files_eq (o : Opts) (pre : String) (ncols : ℕ)
    (h : o.notest = true) :
    output_files o pre ncols =
      beta_files pre ncols
      ++ [pre ++ "_abs_effect.msf", pre ++ "_std_effect.msf", pre ++ "_std_dev.msf"]
      ++ (if o.nperms_nonstationary.isSome then [pre ++ "_cfe_empirical.msf"] else []) := by
  simp [output_files, do_nonstationary_adjustment_val, h]

/-- C8 witness: the amended statement evaluated for `notest` alone. -/
theorem notest_output_files_eq_witness :
    output_files notestOnlyOpts "out" 1 =
      beta_files "out" 1
      ++ ["out_abs_effect.msf", "out_std_effect.msf", "out_std_dev.msf"]
      ++ (if notestOnlyOpts.nperms_nonstationary.isSome then ["out_cfe_empirical.msf"] else []) :=
  notest_output_files_eq notestOnlyOpts "out" 1 rfl

/-! ## Raw connectivity accumulation (TrackProcessor::operator(), lines 131-171)

A connectivity matrix is modelled as an entry function: `M r c = some v`
means row `r` of `connectivity_matrix` holds key `c` with stored value `v`,
and `none` means the key is absent.  Stage 1 of the operator produces, for
each streamline, the ordered list `tract_fixel_indices` of accepted fixel
ids (one per visited voxel, hence pairwise distinct); stage 2 (lines
160-167) then increments `connectivity_matrix[L[i]][L[j]].value` for every
positional pair `i < j`, where `std::map::operator[]` default-constructs an
absent entry with value 0. -/

/-- Connectivity matrices: row, column to optional stored value. -/
def Mat : Type := ℕ → ℕ → Option ℚ

/-- The all-absent matrix (freshly constructed rows, line 321). -/
def emptyMat : Mat := fun _ _ => none

/-- One `connectivity_matrix[a][b].value++` (line 163): absent entries read
as 0 and are created by the increment. -/
def bump (M : Mat) (a b : ℕ) : Mat :=
  fun r c => if r = a ∧ c = b then some ((M a b).getD 0 + 1) else M r c

/-- The inner loop of stage 2: pair fixel `x` with each later fixel of the
streamline in order. -/
def addRow (M : Mat) (x : ℕ) (ys : List ℕ) : Mat :=
  ys.foldl (fun N y => bump N x y) M

/-- The full stage-2 double loop over an accepted fixel list. -/
def addTrack (M : Mat) : List ℕ → Mat
  | [] => M
  | x :: rest => addTrack (addRow M x rest) rest

/-- Accumulation over a whole tractogram, given each streamline's accepted
fixel list. -/
def accumulate (tracks : List (List ℕ)) : Mat :=
  tracks.foldl addTrack emptyMat

/-- `pairBeforeB L r c` holds when `r` occurs at a strictly earlier position
of `L` than some occurrence of `c`. -/
def pairBeforeB : List ℕ → ℕ → ℕ → Bool
  | [], _, _ => false
  | x :: rest, r, c => (decide (r = x) && decide (c ∈ rest)) || pairBeforeB rest r c

theorem bump_ne {M : Mat} {a b r c : ℕ} (h : ¬(r = a ∧ c = b)) :
    bump M a b r c = M r c := by
  simp only [bump, if_neg h]

theorem addRow_entry (ys : List ℕ) (M : Mat) (x r c : ℕ) (hys : ys.Nodup) :
    addRow M x ys r c =
      if r = x ∧ c ∈ ys then some ((M x c).getD 0 + 1) else M r c := by
  induction ys generalizing M with
  | nil => simp [addRow]
  | cons y ys ih =>
    have hyys : y ∉ ys := (List.nodup_cons.mp hys).1
    have hnd : ys.Nodup := (List.nodup_cons.mp hys).2
    show addRow (bump M x y) x ys r c = _
    rw [ih (bump M x y) hnd]
    by_cases hrc : r = x ∧ c ∈ ys
    · have hcy : ¬(c = y) := fun h => hyys (h ▸ hrc.2)
      have : bump M x y x c = M x c := bump_ne (fun h => hcy h.2)
      rw [if_pos hrc, if_pos ⟨hrc.1, List.mem_cons_of_mem y hrc.2⟩, this]
    · rw [if_neg hrc]
      by_cases hb : r = x ∧ c = y
      · have : bump M x y r c = some ((M x y).getD 0 + 1) := by
          simp only [bump, if_pos hb]
        rw [this, if_pos ⟨hb.1, hb.2 ▸ List.mem_cons_self y ys⟩, hb.2]
      · rw [bump_ne hb]
        have : ¬(r = x ∧ c ∈ y :: ys) := by
          rintro ⟨hx, hc⟩
          rcases List.mem_cons.mp hc with h | h
          · exact hb ⟨hx, h⟩
          · exact hrc ⟨hx, h⟩
        rw [if_neg this]

theorem pairBeforeB_mem_left {L : List ℕ} {r c : ℕ}
    (h : pairBeforeB L r c = true) : r ∈ L := by
  induction L with
  | nil => simp [pairBeforeB] at h
  | cons x rest ih =>
    simp only [pairBeforeB, Bool.or_eq_true, Bool.and_eq_true, decide_eq_true_eq] at h
    rcases h with ⟨h1, _⟩ | h2
    · exact h1 ▸ List.mem_cons_self x rest
    · exact List.mem_cons_of_mem x (ih h2)

theorem pairBeforeB_irrefl {L : List ℕ} (hL : L.Nodup) (r : ℕ) :
    pairBeforeB L r r = false := by
  induction L with
  | nil => rfl
  | cons x rest ih =>
    have hx : x ∉ rest := (List.nodup_cons.mp hL).1
    have hnd : rest.Nodup := (List.nodup_cons.mp hL).2
    simp only [pairBeforeB, ih hnd, Bool.or_false]
    by_cases hrx : r = x
    · subst hrx
      simp [hx]
    · simp [hrx]

/-- C5 (amended): for a streamline whose accepted fixel list `L` has
pairwise-distinct entries, stage 2 increments exactly the cells
`M[r][c]` for which `r` occurs in `L` strictly before `c` — i.e. the row
index is the *earlier-visited* fixel of the pair, not `min(a,b)` — and the
diagonal is never touched. -/
theorem addTrack_entry_spec (L : List ℕ) (hL : L.Nodup) (M : Mat) (r c : ℕ) :
    addTrack M L r c =
      (if pairBeforeB L r c = true then some ((M r c).getD 0 + 1) else M r c) ∧
    addTrack M L r r = M r r := by
  have main : ∀ (L : List ℕ), L.Nodup → ∀ (M : Mat) (r c : ℕ),
      addTrack M L r c =
        (if pairBeforeB L r c = true then some ((M r c).getD 0 + 1) else M r c) := by
    intro L
    induction L with
    | nil => intro _ M r c; simp [addTrack, pairBeforeB]
    | cons x rest ih =>
      intro hnd M r c
      have hx : x ∉ rest := (List.nodup_cons.mp hnd).1
      have hrest : rest.Nodup := (List.nodup_cons.mp hnd).2
      show addTrack (addRow M x rest) rest r c = _
      rw [ih hrest (addRow M x rest) r c]
      by_cases hpb : pairBeforeB rest r c = true
      · have hr : r ∈ rest := pairBeforeB_mem_left hpb
        have hrx : ¬(r = x) := fun h => hx (h ▸ hr)
        have h1 : addRow M x rest r c = M r c := by
          rw [addRow_entry rest M x r c hrest, if_neg (fun h => hrx h.1)]
        have h2 : pairBeforeB (x :: rest) r c = true := by
          simp [pairBeforeB, hpb]
        rw [if_pos hpb, h1, if_pos h2]
      · rw [if_neg hpb, addRow_entry rest M x r c hrest]
        have hEq : pairBeforeB (x :: rest) r c = true ↔ (r = x ∧ c ∈ rest) := by
          simp only [pairBeforeB, Bool.or_eq_true, Bool.and_eq_true, decide_eq_true_eq]
          constructor
          · rintro (⟨h1, h2⟩ | h2)
            · exact ⟨h1, h2⟩
            · exact absurd h2 hpb
          · exact fun h => Or.inl h
        by_cases hc : r = x ∧ c ∈ rest
        · rw [if_pos hc, if_pos (hEq.mpr hc), hc.1]
        · rw [if_neg hc, if_neg (fun h => hc (hEq.mp h))]
  refine ⟨main L hL M r c, ?_⟩
  rw [main L hL M r r, pairBeforeB_irrefl hL r]
  simp

/-- C5 witness: the amended statement evaluated on the concrete streamline
`[1, 0]` (fixel 1 visited before fixel 0) at the empty matrix. -/
theorem addTrack_entry_spec_witness :
    (addTrack emptyMat [1, 0] 1 0 =
      (if pairBeforeB [1, 0] 1 0 = true then some ((emptyMat 1 0).getD 0 + 1)
       else emptyMat 1 0) ∧
    addTrack emptyMat [1, 0] 1 1 = emptyMat 1 1) :=
  addTrack_entry_spec [1, 0] (by decide) emptyMat 1 0

/-- C5 counterexample: for the streamline that visits fixel 1 and then
fixel 0, the incremented cell is `M[1][0]` — in the *lower* triangle — while
the upper-triangle cell `M[min 0 1][max 0 1] = M[0][1]` stays absent.  This
refutes the claim that the count goes to `M[min(a,b)][max(a,b)]`. -/
theorem raw_connectivity_not_upper_triangular :
    accumulate [[1, 0]] 1 0 = some 1 ∧ accumulate [[1, 0]] 0 1 = none := by
  constructor <;> simp [accumulate, addTrack, addRow, bump, emptyMat]

/-! ## Track density (TDI) vector (lines 119, 155, 322)

`fixel_TDI` is declared `std::vector<uint16_t>` and each accepted
tangent-to-fixel match performs `fixel_TDI[closest_fixel_index]++`
(line 155).  Sequential increments of a `uint16_t` counter leave it
congruent to the exact number of increments modulo 2^16, so the stored
value is that total reduced mod 65536. -/

/-- Exact number of accepted matches for fixel `j` over all streamlines
(each streamline contributes its accepted fixel list). -/
def tdiExact (tracks : List (List ℕ)) (j : ℕ) : ℕ :=
  (tracks.map fun L => L.count j).sum

/-- The value actually held by the `uint16_t` counter after all increments. -/
def tdiStored (tracks : List (List ℕ)) (j : ℕ) : ℕ :=
  tdiExact tracks j % 65536

theorem tdiStored_def (tracks : List (List ℕ)) (j : ℕ) :
    tdiStored tracks j = tdiExact tracks j % 65536 := rfl

/-- C6 (amended): the TDI counter is 16-bit, not 32-bit: it equals the
exact accepted-match count whenever that total is below 2^16 (and wraps
modulo 2^16 otherwise). -/
theorem tdi_exact_below_65536 (tracks : List (List ℕ)) (j : ℕ)
    (h : tdiExact tracks j < 65536) :
    tdiStored tracks j = tdiExact tracks j :=
  Nat.mod_eq_of_lt h

/-- C6 witness: a single streamline accepting fixel 0 once. -/
theorem tdi_exact_below_65536_witness :
    tdiStored [[0]] 0 = tdiExact [[0]] 0 :=
  tdi_exact_below_65536 [[0]] 0 (by decide)

/-- C6 counterexample: a tractogram with 65536 accepted matches for fixel 0
(a total far below 2^32) leaves the stored counter at 0, so the claim that
no wraparound occurs for totals below 2^32 is false. -/
theorem tdi_wraps_at_65536 :
    tdiExact (List.replicate 65536 [0]) 0 = 65536 ∧
    tdiStored (List.replicate 65536 [0]) 0 = 0 ∧
    65536 < 2 ^ 32 ∧ (0 : ℕ) ≠ 65536 := by
  have hexact : tdiExact (List.replicate 65536 [0]) 0 = 65536 := by
    simp only [tdiExact, List.map_replicate, List.sum_replicate, smul_eq_mul]
    norm_num
  refine ⟨hexact, ?_, by norm_num, by norm_num⟩
  rw [tdiStored_def, hexact]

/-! ## Symmetrisation (run(), lines 349-357)

The loop iterates `fixel = 0 .. num_fixels-1`; for each entry `(k, v)` of
row `fixel` of the current matrix it assigns `M[k][fixel] = v`
(`std::map::operator[]` insert-or-overwrite).  Processing row `fixel` only
writes cells in *column* `fixel`, so the iterated row itself is never
restructured mid-iteration and the step can be modelled as a batch update
of column `fixel`. -/

/-- Left-biased choice: the value written by `M[k][fixel] = v` when row
`fixel` holds `k` (first argument `some v`), otherwise the cell keeps its
previous contents. -/
def ofirst : Option ℚ → Option ℚ → Option ℚ
  | some v, _ => some v
  | none, x => x

/-- Processing of one row `i` of the symmetrisation loop: every cell in
column `i` becomes the mirrored entry of row `i` when that exists. -/
def symStep (N : Mat) (i : ℕ) : Mat :=
  fun r c => if c = i then ofirst (N i r) (N r i) else N r c

/-- The whole symmetrisation loop over rows `0 .. n-1` in ascending order. -/
def symmetrise (n : ℕ) (M : Mat) : Mat :=
  (List.range n).foldl symStep M

theorem ofirst_self (a : Option ℚ) : ofirst a a = a := by
  cases a <;> rfl

theorem ofirst_absorb (a b : Option ℚ) : ofirst (ofirst a b) a = ofirst a b := by
  cases a <;> cases b <;> rfl

theorem symmetrise_succ (n : ℕ) (M : Mat) :
    symmetrise (n + 1) M = symStep (symmetrise n M) n := by
  simp [symmetrise, List.range_succ]

theorem symmetrise_untouched {n c : ℕ} (M : Mat) (r : ℕ) (h : n ≤ c) :
    symmetrise n M r c = M r c := by
  induction n generalizing r with
  | zero => rfl
  | succ n ih =>
    rw [symmetrise_succ]
    have hc : ¬(c = n) := fun hcn => by omega
    show (if c = n then _ else symmetrise n M r c) = M r c
    rw [if_neg hc]
    exact ih r (by omega)

theorem symmetrise_diag (n : ℕ) (M : Mat) (i : ℕ) :
    symmetrise n M i i = M i i := by
  induction n with
  | zero => rfl
  | succ n ih =>
    rw [symmetrise_succ]
    show (if i = n then ofirst (symmetrise n M n i) (symmetrise n M i n) else symmetrise n M i i) = M i i
    by_cases hi : i = n
    · subst hi
      rw [if_pos rfl, ofirst_self, ih]
    · rw [if_neg hi, ih]

theorem symmetrise_low {n r c : ℕ} (M : Mat) (hc : c < n) (hcr : c < r) :
    symmetrise n M r c = ofirst (M c r) (M r c) := by
  induction n generalizing r c with
  | zero => omega
  | succ n ih =>
    rw [symmetrise_succ]
    show (if c = n then ofirst (symmetrise n M n r) (symmetrise n M r n) else symmetrise n M r c) = _
    by_cases hcn : c = n
    · subst hcn
      rw [if_pos rfl, symmetrise_untouched M r (le_refl c),
        symmetrise_untouched M c (by omega)]
    · rw [if_neg hcn]
      exact ih (by omega) hcr

theorem symmetrise_high {n r c : ℕ} (M : Mat) (hrc : r < c) (hc : c < n) :
    symmetrise n M r c = ofirst (M r c) (M c r) := by
  induction n generalizing r c with
  | zero => omega
  | succ n ih =>
    rw [symmetrise_succ]
    show (if c = n then ofirst (symmetrise n M n r) (symmetrise n M r n) else symmetrise n M r c) = _
    by_cases hcn : c = n
    · subst hcn
      rw [if_pos rfl, symmetrise_low M (by omega) hrc,
        symmetrise_untouched M r (le_refl c), ofirst_absorb]
    · rw [if_neg hcn]
      exact ih hrc (by omega)

/-- C2 (amended): immediately after the symmetrisation loop (lines 349-357)
the connectivity matrix is symmetric on all fixels below `num_fixels`: the
cells `(i, j)` and `(j, i)` hold the same optional value, so `j` is a key
of row `i` iff `i` is a key of row `j`, with equal stored values.  (The
subsequent per-row thresholding of lines 368-397 divides by each row's own
TDI and can break this, see `finalised_connectivity_not_symmetric`.) -/
theorem symmetrised_connectivity_symmetric (n : ℕ) (M : Mat) (i j : ℕ)
    (hi : i < n) (hj : j < n) :
    symmetrise n M i j = symmetrise n M j i := by
  rcases lt_trichotomy i j with h | h | h
  · rw [symmetrise_high M h hj, symmetrise_low M hi h]
  · subst h; rfl
  · rw [symmetrise_low M hj h, symmetrise_high M h hi]

/-- C2 witness: the symmetry statement evaluated for two fixels and the
single streamline visiting fixel 0 then fixel 1. -/
theorem symmetrised_connectivity_symmetric_witness :
    symmetrise 2 (accumulate [[0, 1]]) 0 1 = symmetrise 2 (accumulate [[0, 1]]) 1 0 :=
  symmetrised_connectivity_symmetric 2 (accumulate [[0, 1]]) 0 1 (by norm_num) (by norm_num)

/-! ## Connectivity finalisation (run(), lines 368-397)

For each row `fixel` (ascending), every entry `(j, v)` is normalised to
`c = v / TDI[fixel]`; if `c < connectivity_threshold` the entry is erased,
otherwise it is replaced by `pow(c, cfe_c)`; afterwards the diagonal entry
`(fixel, 1.0)` is inserted (`std::map::insert`: only if absent).  `Math::pow`
is a library function and is passed in as the parameter `powc`; for a run
with option `cfe_c 1` it is the identity, `pow(x, 1) = x`.  Rows are
processed independently, so the loop is modelled row by row. -/

/-- Fate of a single cell under lines 373-387: absent stays absent; a raw
count `v` is erased when `v / TDI < threshold` and otherwise replaced by
`pow(v / TDI, cfe_c)`. -/
def keepEntry (thr : ℚ) (powc : ℚ → ℚ) (tdi : ℕ) : Option ℚ → Option ℚ
  | none => none
  | some v => if v / (tdi : ℚ) < thr then none else some (powc (v / (tdi : ℚ)))

/-- Processing of one row: threshold with the row's own TDI denominator,
exponentiate survivors, insert the diagonal if absent. -/
def finaliseRow (thr : ℚ) (powc : ℚ → ℚ) (tdi : ℕ) (i : ℕ)
    (row : ℕ → Option ℚ) : ℕ → Option ℚ :=
  fun j =>
    if j = i then ofirst (keepEntry thr powc tdi (row j)) (some 1)
    else keepEntry thr powc tdi (row j)

/-- The normalise-threshold-exponentiate loop over all `n` rows. -/
def finalise (n : ℕ) (thr : ℚ) (powc : ℚ → ℚ) (TDI : ℕ → ℕ) (M : Mat) : Mat :=
  fun i => if i < n then finaliseRow thr powc (TDI i) i (M i) else M i

theorem finalise_app (n : ℕ) (thr : ℚ) (powc : ℚ → ℚ) (TDI : ℕ → ℕ) (M : Mat)
    (i j : ℕ) (hi : i < n) (hij : ¬(j = i)) :
    finalise n thr powc TDI M i j = keepEntry thr powc (TDI i) (M i j) := by
  show (if i < n then finaliseRow thr powc (TDI i) i (M i) else M i) j = _
  rw [if_pos hi]
  show (if j = i then _ else keepEntry thr powc (TDI i) (M i j)) = _
  rw [if_neg hij]

/-- The tractogram of the C2 counterexample: one streamline visiting fixel 0
then fixel 1, and two streamlines visiting only fixel 1, so that
`TDI = [1, 3]` and the raw count of the pair is 1. -/
def cexTracks : List (List ℕ) := [[0, 1], [1], [1]]

/-- The connectivity matrix of the C2 counterexample after the full
finalisation pipeline (accumulation, symmetrisation, per-row thresholding
with threshold 1/2, exponentiation with `cfe_c 1`, diagonal insertion). -/
def cexFinal : Mat :=
  finalise 2 (1/2) (fun c => c) (tdiStored cexTracks) (symmetrise 2 (accumulate cexTracks))

/-- C2 counterexample: after connectivity finalisation the matrix is *not*
symmetric.  With two fixels, `TDI = [1, 3]`, raw pair count 1 and
connectivity threshold 1/2 (a legal option value), row 0 keeps key 1
(`1/1 ≥ 1/2`) but row 1 erases key 0 (`1/3 < 1/2`), so `1 ∈ keys(row 0)`
while `0 ∉ keys(row 1)` — refuting the claimed key-set equivalence (and
value equality) for `i ≠ j`. -/
theorem finalised_connectivity_not_symmetric :
    cexFinal 0 1 = some 1 ∧ cexFinal 1 0 = none := by
  have hacc01 : accumulate cexTracks 0 1 = some 1 := by
    simp [cexTracks, accumulate, addTrack, addRow, bump, emptyMat]
  have hsym01 : symmetrise 2 (accumulate cexTracks) 0 1 = some 1 := by
    rw [symmetrise_high (accumulate cexTracks) (by norm_num) (by norm_num), hacc01]
    rfl
  have hsym10 : symmetrise 2 (accumulate cexTracks) 1 0 = some 1 := by
    rw [symmetrise_low (accumulate cexTracks) (by norm_num) (by norm_num), hacc01]
    rfl
  have htdi0 : tdiStored cexTracks 0 = 1 := by decide
  have htdi1 : tdiStored cexTracks 1 = 3 := by decide
  constructor
  · show finalise 2 (1/2) (fun c => c) (tdiStored cexTracks)
      (symmetrise 2 (accumulate cexTracks)) 0 1 = some 1
    rw [finalise_app 2 (1/2) (fun c => c) (tdiStored cexTracks)
      (symmetrise 2 (accumulate cexTracks)) 0 1 (by norm_num) (by norm_num),
      htdi0, hsym01]
    simp only [keepEntry]
    norm_num
  · show finalise 2 (1/2) (fun c => c) (tdiStored cexTracks)
      (symmetrise 2 (accumulate cexTracks)) 1 0 = none
    rw [finalise_app 2 (1/2) (fun c => c) (tdiStored cexTracks)
      (symmetrise 2 (accumulate cexTracks)) 1 0 (by norm_num) (by norm_num),
      htdi1, hsym10]
    simp only [keepEntry]
    norm_num

/-! ## Fixel index construction (run(), lines 288-315)

The 4-D index buffer is initialised to -1 everywhere (lines 294-296), but
the build loop (lines 302-315) visits *every* voxel of the mask grid and
assigns plane 0 (`indexer_vox.value() = directions.size()`, line 305) and
plane 1 (`indexer_vox.value() = fixel_count`, line 314) unconditionally —
also for voxels whose sparse value holds no fixels.  The grid is modelled
as the scan-ordered list of per-voxel fixel counts; the result is the
scan-ordered list of `(first_fixel, count)` pairs, and the -1 sentinel
survives nowhere. -/

/-- The build loop with running fixel total `t`: each voxel is assigned the
pair (current total, its own fixel count). -/
def buildIndexGo (t : ℕ) : List ℕ → List (ℤ × ℤ)
  | [] => []
  | k :: rest => ((t : ℤ), (k : ℤ)) :: buildIndexGo (t + k) rest

/-- The voxel index produced by the build loop over the whole grid. -/
def buildIndex (sizes : List ℕ) : List (ℤ × ℤ) :=
  buildIndexGo 0 sizes

theorem buildIndexGo_entry (sizes : List ℕ) :
    ∀ (t p : ℕ) (hp : p < sizes.length),
      (buildIndexGo t sizes)[p]? =
        some (((t + (sizes.take p).sum : ℕ) : ℤ), ((sizes.get ⟨p, hp⟩ : ℕ) : ℤ)) := by
  induction sizes with
  | nil => intro t p hp; simp at hp
  | cons k rest ih =>
    intro t p hp
    cases p with
    | zero => simp [buildIndexGo]
    | succ q =>
      have hq : q < rest.length := by simpa using hp
      have hgo : buildIndexGo t (k :: rest) = ((t : ℤ), (k : ℤ)) :: buildIndexGo (t + k) rest := rfl
      rw [hgo, List.getElem?_cons_succ, ih (t + k) q hq]
      have h1 : ((k :: rest).take (q + 1)).sum = k + (rest.take q).sum := by
        simp [List.take_succ_cons]
      have h2 : (k :: rest).get ⟨q + 1, hp⟩ = rest.get ⟨q, hq⟩ := rfl
      have h3 : t + (k + (rest.take q).sum) = t + k + (rest.take q).sum := by omega
      rw [h1, h2, h3]

/-- C7 (amended): after the build loop, *every* voxel `p` of the grid —
populated or not — holds `first_fixel` equal to the total fixel count of
all earlier voxels (never the -1 sentinel) and `count` equal to its own
fixel count; consequently `first_fixel + count ≤ num_fixels` always, and a
voxel with `k ≥ 1` fixels has `first_fixel ∈ [0, num_fixels)`. -/
theorem buildIndex_entry_spec (sizes : List ℕ) (p : ℕ) (hp : p < sizes.length) :
    (buildIndex sizes)[p]? =
      some ((((sizes.take p).sum : ℕ) : ℤ), ((sizes.get ⟨p, hp⟩ : ℕ) : ℤ)) ∧
    (sizes.take p).sum + sizes.get ⟨p, hp⟩ ≤ sizes.sum ∧
    (0 < sizes.get ⟨p, hp⟩ → (sizes.take p).sum < sizes.sum) := by
  have hmain := buildIndexGo_entry sizes 0 p hp
  have hsum : ((sizes.take (p + 1)).sum : ℕ) + (sizes.drop (p + 1)).sum = sizes.sum :=
    List.sum_take_add_sum_drop sizes (p + 1)
  have hstep : (sizes.take (p + 1)).sum = (sizes.take p).sum + sizes.get ⟨p, hp⟩ :=
    List.sum_take_succ sizes p hp
  constructor
  · simpa [buildIndex] using hmain
  · constructor
    · omega
    · intro hpos; omega

/-- C7 counterexample: a two-voxel grid whose first voxel holds no fixels
and whose second holds one.  After the build, the empty voxel's
`first_fixel` is 0 (the running fixel total), not the -1 sentinel — and its
`count` is 0.  This refutes the claim that fixel-free voxels keep
`first_fixel = -1`. -/
theorem empty_voxel_first_fixel_not_neg_one :
    (buildIndex [0, 1])[0]? = some ((0 : ℤ), (0 : ℤ)) ∧ ((0 : ℤ) ≠ -1) := by
  constructor
  · rfl
  · decide

/-- C7 witness: the amended statement evaluated at the populated voxel of
the two-voxel grid. -/
theorem buildIndex_entry_spec_witness :
    ((buildIndex [0, 1])[1]? =
      some ((((([0, 1] : List ℕ).take 1).sum : ℕ) : ℤ),
        ((([0, 1] : List ℕ).get ⟨1, by norm_num⟩ : ℕ) : ℤ))) ∧
    (([0, 1] : List ℕ).take 1).sum + ([0, 1] : List ℕ).get ⟨1, by norm_num⟩ ≤
      ([0, 1] : List ℕ).sum ∧
    (0 < ([0, 1] : List ℕ).get ⟨1, by norm_num⟩ →
      ((([0, 1] : List ℕ).take 1).sum < ([0, 1] : List ℕ).sum)) :=
  buildIndex_entry_spec [0, 1] 1 (by norm_num)

/-! ## Smoothing weights (run(), lines 360-407 and 442-449)

Rows of `smoothing_weights` are association lists (distinct keys, as the
entries come from iterating a `std::map` and from `std::map::insert`).
During row processing (lines 377-384) a weight
`w(j) = connectivity * gaussian_const1 * exp(-distance^2 / gaussian_const2)`
is computed for each neighbour `j` that survived the connectivity
threshold (`neigh` lists those keys in map order), and is inserted iff
smoothing is enabled and `w(j) > connectivity_threshold`; `Math::exp` and
`Math::sqrt` are library code, so `w` is a parameter.  Line 394 then
inserts the diagonal `(i, gaussian_const1)` — a no-op when the key is
already present.  Lines 400-407 divide every entry by the row sum.
Lines 443-448 apply a row to a subject's matched fixel values. -/

/-- One row of `smoothing_weights` as built by lines 377-394. -/
def smoothRow (do_sm : Bool) (thr g1 : ℚ) (w : ℕ → ℚ) (i : ℕ)
    (neigh : List ℕ) : List (ℕ × ℚ) :=
  let ins := (neigh.filter fun j => do_sm && decide (thr < w j)).map fun j => (j, w j)
  if i ∈ ins.map Prod.fst then ins else ins ++ [(i, g1)]

/-- Sum of the stored weights of a row (lines 401-403:
`sum += it->second` over the row). -/
def rowSum : List (ℕ × ℚ) → ℚ
  | [] => 0
  | p :: rest => p.2 + rowSum rest

/-- Row normalisation (lines 404-406): every entry is multiplied by
`norm_factor = 1 / sum`. -/
def normalizeRow (row : List (ℕ × ℚ)) : List (ℕ × ℚ) :=
  row.map fun p => (p.1, p.2 * (1 / rowSum row))

/-- Lookup of a key in an association-list row (`std::map::operator[]` read). -/
def keyLookup : List (ℕ × ℚ) → ℕ → Option ℚ
  | [], _ => none
  | p :: rest, k => if p.1 = k then some p.2 else keyLookup rest k

/-- Application of a smoothing row to a subject's matched fixel data
(lines 443-448): `value += temp_fixel_data[it->first] * it->second`. -/
def applySmoothing (row : List (ℕ × ℚ)) (t : ℕ → ℚ) : ℚ :=
  (row.map fun p => t p.1 * p.2).sum

theorem rowSum_map_mul (row : List (ℕ × ℚ)) (c : ℚ) :
    rowSum (row.map fun p => (p.1, p.2 * c)) = rowSum row * c := by
  induction row with
  | nil => simp [rowSum]
  | cons q rest ih =>
    show q.2 * c + rowSum (rest.map fun p => (p.1, p.2 * c)) = (q.2 + rowSum rest) * c
    rw [ih, add_mul]

theorem rowSum_pos (row : List (ℕ × ℚ)) (hne : row ≠ [])
    (h : ∀ p ∈ row, 0 < p.2) : 0 < rowSum row := by
  induction row with
  | nil => exact absurd rfl hne
  | cons q rest ih =>
    have h1 := h q (List.mem_cons_self q rest)
    show 0 < q.2 + rowSum rest
    rcases eq_or_ne rest [] with hr | hr
    · subst hr
      show 0 < q.2 + 0
      linarith
    · have h2 := ih hr (fun p hp => h p (List.mem_cons_of_mem q hp))
      linarith

theorem smoothRow_entries_pos (do_sm : Bool) (thr g1 : ℚ) (w : ℕ → ℚ) (i : ℕ)
    (neigh : List ℕ) (hg : 0 < g1) (hthr : 0 ≤ thr) :
    ∀ p ∈ smoothRow do_sm thr g1 w i neigh, 0 < p.2 := by
  intro p hp
  have hins : ∀ q ∈ (neigh.filter fun j => do_sm && decide (thr < w j)).map
      (fun j => (j, w j)), 0 < q.2 := by
    intro q hq
    rcases List.mem_map.mp hq with ⟨j, hj, rfl⟩
    have := (List.mem_filter.mp hj).2
    have hw : thr < w j := by
      rcases Bool.and_eq_true_iff.mp this with ⟨_, h2⟩
      exact of_decide_eq_true h2
    exact lt_of_le_of_lt hthr hw
  unfold smoothRow at hp
  by_cases hmem : i ∈ ((neigh.filter fun j => do_sm && decide (thr < w j)).map
      (fun j => (j, w j))).map Prod.fst
  · rw [if_pos hmem] at hp
    exact hins p hp
  · rw [if_neg hmem] at hp
    rcases List.mem_append.mp hp with h | h
    · exact hins p h
    · have : p = (i, g1) := by simpa using h
      rw [this]
      exact hg

theorem smoothRow_diag_mem (do_sm : Bool) (thr g1 : ℚ) (w : ℕ → ℚ) (i : ℕ)
    (neigh : List ℕ) :
    i ∈ (smoothRow do_sm thr g1 w i neigh).map Prod.fst := by
  unfold smoothRow
  by_cases hmem : i ∈ ((neigh.filter fun j => do_sm && decide (thr < w j)).map
      (fun j => (j, w j))).map Prod.fst
  · rw [if_pos hmem]
    exact hmem
  · rw [if_neg hmem]
    simp

theorem keyLookup_of_mem (l : List (ℕ × ℚ)) (k : ℕ) (h : k ∈ l.map Prod.fst) :
    ∃ p, p ∈ l ∧ p.1 = k ∧ keyLookup l k = some p.2 := by
  induction l with
  | nil => simp at h
  | cons q rest ih =>
    by_cases hq : q.1 = k
    · exact ⟨q, List.mem_cons_self q rest, hq, by simp [keyLookup, hq]⟩
    · have hk : k ∈ rest.map Prod.fst := by
        rcases List.mem_map.mp h with ⟨p, hp, hpk⟩
        rcases List.mem_cons.mp hp with h1 | h1
        · exact absurd (h1 ▸ hpk) hq
        · exact List.mem_map.mpr ⟨p, h1, hpk⟩
      rcases ih hk with ⟨p, hp, hpk, hlook⟩
      exact ⟨p, List.mem_cons_of_mem q hp, hpk, by simp [keyLookup, hq, hlook]⟩

/-- C9: after normalisation every smoothing row is row-stochastic: it sums
to exactly 1, all entries are nonnegative, and the diagonal key `i` is
present with strictly positive weight.  Hypotheses: `gaussian_const1 > 0`
(it is 1 or `1/(sigma*sqrt(2*pi))` with `sigma > 0`) and the connectivity
threshold is nonnegative (its option range is [0.001, 1], default 0.01). -/
theorem smoothing_rows_stochastic (do_sm : Bool) (thr g1 : ℚ) (w : ℕ → ℚ) (i : ℕ)
    (neigh : List ℕ) (hg : 0 < g1) (hthr : 0 ≤ thr) :
    rowSum (normalizeRow (smoothRow do_sm thr g1 w i neigh)) = 1 ∧
    (∀ p ∈ normalizeRow (smoothRow do_sm thr g1 w i neigh), 0 ≤ p.2) ∧
    ∃ v, keyLookup (normalizeRow (smoothRow do_sm thr g1 w i neigh)) i = some v ∧ 0 < v := by
  have hpos := smoothRow_entries_pos do_sm thr g1 w i neigh hg hthr
  have hne : smoothRow do_sm thr g1 w i neigh ≠ [] := by
    intro hnil
    have := smoothRow_diag_mem do_sm thr g1 w i neigh
    rw [hnil] at this
    simp at this
  have hsum : 0 < rowSum (smoothRow do_sm thr g1 w i neigh) :=
    rowSum_pos _ hne hpos
  have hsum_ne : rowSum (smoothRow do_sm thr g1 w i neigh) ≠ 0 := ne_of_gt hsum
  have hinv : 0 < 1 / rowSum (smoothRow do_sm thr g1 w i neigh) := by positivity
  refine ⟨?_, ?_, ?_⟩
  · show rowSum ((smoothRow do_sm thr g1 w i neigh).map
      fun p => (p.1, p.2 * (1 / rowSum (smoothRow do_sm thr g1 w i neigh)))) = 1
    rw [rowSum_map_mul, mul_one_div]
    exact div_self hsum_ne
  · intro p hp
    rcases List.mem_map.mp hp with ⟨q, hq, rfl⟩
    exact le_of_lt (mul_pos (hpos q hq) hinv)
  · have hmem : i ∈ (normalizeRow (smoothRow do_sm thr g1 w i neigh)).map Prod.fst := by
      unfold normalizeRow
      rw [List.map_map]
      have : (Prod.fst ∘ fun p : ℕ × ℚ =>
          (p.1, p.2 * (1 / rowSum (smoothRow do_sm thr g1 w i neigh)))) = Prod.fst := rfl
      rw [this]
      exact smoothRow_diag_mem do_sm thr g1 w i neigh
    rcases keyLookup_of_mem _ i hmem with ⟨p, hp, _, hlook⟩
    refine ⟨p.2, hlook, ?_⟩
    rcases List.mem_map.mp hp with ⟨q, hq, rfl⟩
    exact mul_pos (hpos q hq) hinv

/-- C9 witness: the row-stochastic statement for a fixel with no
above-threshold neighbours. -/
theorem smoothing_rows_stochastic_witness :
    rowSum (normalizeRow (smoothRow true (1/100) 1 (fun _ => 0) 0 [])) = 1 ∧
    (∀ p ∈ normalizeRow (smoothRow true (1/100) 1 (fun _ => 0) 0 []), 0 ≤ p.2) ∧
    ∃ v, keyLookup (normalizeRow (smoothRow true (1/100) 1 (fun _ => 0) 0 [])) 0 = some v ∧ 0 < v :=
  smoothing_rows_stochastic true (1/100) 1 (fun _ => 0) 0 [] (by norm_num) (by norm_num)

/-- Options: `smooth 0` supplied (smoothing disabled). -/
def smoothZeroOpts : Opts :=
  ⟨none, none, none, none, none, none, none, some 0, false, false, none⟩

/-- C10: with `smooth 0`, `smooth_std_dev = 0 / 2.3548 = 0`, so
`do_smoothing` stays false and `gaussian_const1` stays 1 (lines 360-367);
no weight is ever inserted in the row loop and each smoothing row is
exactly the diagonal singleton `{i: 1.0}`, unchanged by normalisation; the
smoothing step (lines 443-448) is then the identity:
`data(i, s) = t[i] * 1 = t[i]` for every subject's matched fixel values `t`. -/
theorem smoothing_disabled_identity (thr g : ℚ) (w : ℕ → ℚ) (i : ℕ)
    (neigh : List ℕ) (t : ℕ → ℚ) :
    smooth_std_dev_val smoothZeroOpts = 0 ∧
    do_smoothing_val (smooth_std_dev_val smoothZeroOpts) = false ∧
    gaussian_const1_val (smooth_std_dev_val smoothZeroOpts) g = 1 ∧
    normalizeRow (smoothRow false thr 1 w i neigh) = [(i, 1)] ∧
    applySmoothing (normalizeRow (smoothRow false thr 1 w i neigh)) t = t i := by
  have h0 : smooth_std_dev_val smoothZeroOpts = 0 := by
    simp [smooth_std_dev_val, smoothZeroOpts]
  have hrow : smoothRow false thr 1 w i neigh = [(i, 1)] := by
    simp [smoothRow]
  have hnorm : normalizeRow (smoothRow false thr 1 w i neigh) = [(i, 1)] := by
    rw [hrow]
    simp [normalizeRow, rowSum]
  refine ⟨h0, ?_, ?_, hnorm, ?_⟩
  · rw [h0]
    simp [do_smoothing_val]
  · rw [h0]
    simp [gaussian_const1_val]
  · rw [hnorm]
    simp [applySmoothing]
